import Mathlib

/-!
Shallow embedding of the SQUIRDEL word-game engine
(`src/utils/gameLogic.ts` and the game context in `src/App.tsx`).

Strings are modelled as lists of UTF-16 code units (`List Nat`), which is
what the JavaScript string operations used by the source (indexing,
`charCodeAt`, `toLowerCase`, `toUpperCase`, `trim`) act on.  Every
definition is transcribed from the TypeScript source; all claims below
concern equal-length guess/secret pairs, on which the `zip`-based loops
here coincide with the source's index loops.
-/

/-- Model of `String.prototype.toLowerCase` on one UTF-16 code unit,
restricted to the ASCII range the game manipulates. -/
def toLowerCode (c : Nat) : Nat :=
  if 65 ≤ c ∧ c ≤ 90 then c + 32 else c

/-- Model of `String.prototype.toUpperCase` on one UTF-16 code unit. -/
def toUpperCode (c : Nat) : Nat :=
  if 97 ≤ c ∧ c ≤ 122 then c - 32 else c

/-- Lower-casing of a whole string (`word.toLowerCase()`). -/
def toLowerStr (s : List Nat) : List Nat := s.map toLowerCode

/-- Code units matched by the character class `[a-z]` of the validity
regex `/^[a-z]+$/`. -/
def isAsciiLowerCode (c : Nat) : Bool :=
  decide (97 ≤ c ∧ c ≤ 122)

/-- White-space code units removed by `String.prototype.trim`. -/
def isJsWhitespace (c : Nat) : Bool :=
  decide (c = 9 ∨ c = 10 ∨ c = 11 ∨ c = 12 ∨ c = 13 ∨ c = 32 ∨ c = 160 ∨
    c = 8232 ∨ c = 8233 ∨ c = 65279)

/-- Model of `String.prototype.trim`: drop white space from both ends. -/
def jsTrim (l : List Nat) : List Nat :=
  ((l.dropWhile isJsWhitespace).reverse.dropWhile isJsWhitespace).reverse

/-- `LetterStatus` from `src/types/index.ts`. -/
inductive LetterStatus
  | correct
  | present
  | absent
  | empty
deriving DecidableEq

/-- `LetterFeedback` from `src/types/index.ts`. -/
structure LetterFeedback where
  letter : Nat
  status : LetterStatus
deriving DecidableEq

/-- `HintSummary` from `src/types/index.ts`. -/
structure HintSummary where
  lettersInWord : Nat
  correctPosition : Nat
deriving DecidableEq

/-- Occurrences of code unit `c` in a string, as accumulated by the
`for (const char of secretChars) counts[char]++` loop. -/
def countOcc (c : Nat) : List Nat → Nat
  | [] => 0
  | x :: rest => (if x = c then 1 else 0) + countOcc c rest

/-- The secret's letter multiset `secretCharCounts` built at the top of
`getGuessFeedback`: each code unit maps to its number of occurrences
(`undefined` in the record is read back as 0 via `|| 0` / falsiness). -/
def secretCharCounts (secret : List Nat) : Nat → Nat :=
  fun c => countOcc c secret

/-- One `secretCharCounts[ch]--` step.  In the source the count never
goes below zero at the places it is decremented, so `Nat` subtraction is
faithful. -/
def decr (counts : Nat → Nat) (ch : Nat) : Nat → Nat :=
  fun d => if d = ch then counts d - 1 else counts d

/-- First pass of `getGuessFeedback`: walk the guess/secret position
pairs and decrement the multiset at every exact match. -/
def pass1Counts : List (Nat × Nat) → (Nat → Nat) → (Nat → Nat)
  | [], counts => counts
  | (g, s) :: rest, counts =>
    if g = s then pass1Counts rest (decr counts g)
    else pass1Counts rest counts

/-- Both loops of `getGuessFeedback` merged over the position pairs: an
exact-match position is emitted as `correct` (its decrement already
happened in `pass1Counts`), any other position is emitted left to right
as `present` while the remaining count is positive, else `absent`. -/
def pass2 : List (Nat × Nat) → (Nat → Nat) → List LetterFeedback
  | [], _ => []
  | (g, s) :: rest, counts =>
    if g = s then ⟨g, .correct⟩ :: pass2 rest counts
    else if 0 < counts g then ⟨g, .present⟩ :: pass2 rest (decr counts g)
    else ⟨g, .absent⟩ :: pass2 rest counts

/-- `getGuessFeedback` from `src/utils/gameLogic.ts`. -/
def getGuessFeedback (guess secret : List Nat) : List LetterFeedback :=
  let guessChars := toLowerStr guess
  let secretChars := toLowerStr secret
  let pairs := guessChars.zip secretChars
  pass2 pairs (pass1Counts pairs (secretCharCounts secretChars))

/-- `isGuessCorrect` from `src/utils/gameLogic.ts`:
`guess.toLowerCase() === secret.toLowerCase()`. -/
def isGuessCorrect (guess secret : List Nat) : Bool :=
  decide (toLowerStr guess = toLowerStr secret)

/-- The code units of `"speed"`. -/
def wordSpeed : List Nat := [115, 112, 101, 101, 100]

/-- The code units of `"eerie"`. -/
def wordEerie : List Nat := [101, 101, 114, 105, 101]

/-- The `correctPosition` loop of `getHintSummary`: count the positions
where the lowered guess and secret agree (positions past the shorter
word never compare equal in the source, since indexing past the end
yields `undefined`). -/
def countCorrectPosition : List Nat → List Nat → Nat
  | g :: gs, s :: ss => (if g = s then 1 else 0) + countCorrectPosition gs ss
  | _, _ => 0

/-- The `lettersInWord` loop of `getHintSummary`: walk the guess
characters, counting a character when it occurs in the secret and has
not been counted before (`countedLetters` is the accumulator set). -/
def countLettersInWord : List Nat → List Nat → List Nat → Nat
  | [], _, _ => 0
  | c :: rest, secret, counted =>
    if c ∈ secret ∧ c ∉ counted then 1 + countLettersInWord rest secret (c :: counted)
    else countLettersInWord rest secret counted

/-- `getHintSummary` from `src/utils/gameLogic.ts`. -/
def getHintSummary (guess secret : List Nat) : HintSummary :=
  let guessLower := toLowerStr guess
  let secretLower := toLowerStr secret
  { lettersInWord := countLettersInWord guessLower secretLower []
    correctPosition := countCorrectPosition guessLower secretLower }

/-- `isValidWord` from `src/utils/gameLogic.ts`: trim and lower the
word, require length 5 or 6 (and equal to `wordLength` when given), and
require every character to match `/^[a-z]+$/`. -/
def isValidWord (word : List Nat) (wordLength : Option Nat) : Bool :=
  let cleanWord := jsTrim (toLowerStr word)
  let len := cleanWord.length
  if len ≠ 5 ∧ len ≠ 6 then false
  else
    match wordLength with
    | some wl => if len ≠ wl then false else cleanWord.all isAsciiLowerCode
    | none => cleanWord.all isAsciiLowerCode

/-- `GameStats` from `src/types/index.ts`.  The source's
`guessDistribution` is a JavaScript record read back through `|| 0`, so
it is modelled as a total function defaulting to 0. -/
structure GameStats where
  gamesPlayed : Nat
  gamesWon : Nat
  currentStreak : Nat
  bestStreak : Nat
  guessDistribution : Nat → Nat

/-- The all-zero `GameStats` that `loadStats` falls back to when nothing
is persisted. -/
def freshStats : GameStats :=
  { gamesPlayed := 0, gamesWon := 0, currentStreak := 0, bestStreak := 0
    guessDistribution := fun _ => 0 }

/-- The mutation performed by `updateStats` in `src/utils/gameLogic.ts`
on the loaded stats (the surrounding `loadStats`/`saveStats` persistence
is the opaque store; the stats record is passed explicitly here). -/
def updateStats (stats : GameStats) (won : Bool) (guesses : Nat) : GameStats :=
  let s1 := { stats with gamesPlayed := stats.gamesPlayed + 1 }
  if won then
    let s2 := { s1 with gamesWon := s1.gamesWon + 1, currentStreak := s1.currentStreak + 1 }
    let s3 := if s2.currentStreak > s2.bestStreak then { s2 with bestStreak := s2.currentStreak } else s2
    { s3 with
      guessDistribution :=
        fun k => if k = guesses then s3.guessDistribution guesses + 1 else s3.guessDistribution k }
  else { s1 with currentStreak := 0 }

/-- JavaScript `ToInt32` (the coercion applied by `<<` and `&`): reduce
modulo 2^32 into the signed-representative range `[-2^31, 2^31)`. -/
def toInt32 (n : Int) : Int :=
  (n + 2 ^ 31) % 2 ^ 32 - 2 ^ 31

/-- One iteration of the hash loop in `getDailyWord`:
`hash = ((hash << 5) - hash) + charCode; hash = hash & hash`.
`hash << 5` coerces to int32 and wraps, the sum is exact in doubles, and
`hash & hash` coerces the result back to int32. -/
def hashStep (hash : Int) (c : Nat) : Int :=
  let shifted := toInt32 (hash * 32)
  toInt32 (shifted - hash + c)

/-- The full hash loop of `getDailyWord` over the date string. -/
def hashString (s : List Nat) : Int := s.foldl hashStep 0

/-- Modelled from the spec (claim side): the hash described in the spec,
`hash = ((hash << 5) - hash + charCode)` truncated to 32 bits in a
single step per character. -/
def specHashStep (hash : Int) (c : Nat) : Int :=
  toInt32 (hash * 32 - hash + c)

/-- The spec-side hash folded over the date string. -/
def specHashString (s : List Nat) : Int := s.foldl specHashStep 0

/-- Decimal digit code units of a natural number, most significant
first (the template-literal rendering of `year`, `month`, `day`). -/
def natDigitsAux : Nat → Nat → List Nat
  | 0, _ => []
  | fuel + 1, n =>
    if n < 10 then [48 + n]
    else natDigitsAux fuel (n / 10) ++ [48 + n % 10]

/-- Code units of the decimal rendering of `n`. -/
def natDigitCodes (n : Nat) : List Nat := natDigitsAux (n + 1) n

/-- Code units of the template literal
`` `${year}-${month}-${day}` `` (45 is `'-'`; `month` is the zero-based
`getMonth()` value, `day` is `getDate()`). -/
def dateStringCodes (year month day : Nat) : List Nat :=
  natDigitCodes year ++ [45] ++ natDigitCodes month ++ [45] ++ natDigitCodes day

/-- `getDailyWord` from `src/utils/gameLogic.ts`, with the word corpus
(`FIVE_LETTER_WORDS` / `SIX_LETTER_WORDS`, whose data file is outside
the engine) and the wall-clock date passed explicitly.  Indexing a
nonempty list at `|hash| % length` is always in range; `getD` models the
JavaScript array read. -/
def getDailyWord (five six : List (List Nat)) (wordLength : Nat)
    (year month day : Nat) : List Nat :=
  let wordList := if wordLength = 5 then five else six
  let hash := hashString (dateStringCodes year month day)
  let index := hash.natAbs % wordList.length
  wordList.getD index []

/-- The three letter states a key of the on-screen keyboard can record
(`Record<string, 'correct' | 'present' | 'absent' | undefined>` in
`GameContext`; `undefined` is `none`). -/
inductive KeyStatus
  | correct
  | present
  | absent
deriving DecidableEq

/-- One iteration of the loop in `updateKeyboardStatus`: upgrade the
entry for `item.letter` only when the new status is better. -/
def updateKeyItem (kb : Nat → Option KeyStatus) (item : LetterFeedback) :
    Nat → Option KeyStatus :=
  let currentStatus := kb item.letter
  if item.status = .correct then
    fun c => if c = item.letter then some .correct else kb c
  else if item.status = .present ∧ currentStatus ≠ some .correct then
    fun c => if c = item.letter then some .present else kb c
  else if item.status = .absent ∧ currentStatus ≠ some .correct ∧
      currentStatus ≠ some .present then
    fun c => if c = item.letter then some .absent else kb c
  else kb

/-- `updateKeyboardStatus` from the game context in `src/App.tsx`. -/
def updateKeyboardStatus (kb : Nat → Option KeyStatus)
    (feedback : List LetterFeedback) : Nat → Option KeyStatus :=
  feedback.foldl updateKeyItem kb

/-- Rank of a keyboard entry along the upgrade order
`undefined < absent < present < correct`. -/
def keyRank : Option KeyStatus → Nat
  | none => 0
  | some .absent => 1
  | some .present => 2
  | some .correct => 3

/-- `gameStatus` values from `src/types/index.ts`. -/
inductive GameStatus
  | playing
  | won
  | lost
deriving DecidableEq

/-- `GameMode` from `src/types/index.ts`. -/
inductive GameMode
  | daily
  | unlimited
deriving DecidableEq

/-- A recorded `Guess` from `src/types/index.ts`. -/
structure Guess where
  word : List Nat
  feedback : List LetterFeedback
deriving DecidableEq

/-- `GameState` from `src/types/index.ts` (the `difficulty` field is
constant `'normal'` throughout the source and is omitted). -/
structure GameState where
  secretWord : List Nat
  guesses : List Guess
  currentGuess : List Nat
  gameStatus : GameStatus
  wordLength : Nat
  gameMode : GameMode
  maxAttempts : Nat

/-- The session-level state held by `GameProvider`: the game state plus
the keyboard map, the stats store, and the last hint/feedback. -/
structure AppState where
  gameState : GameState
  keyboardStatus : Nat → Option KeyStatus
  stats : GameStats
  currentHint : Option HintSummary
  lastGuessFeedback : Option (List LetterFeedback)

/-- Externally visible store writes performed during one `submitGuess`
call: the `updateStats` persistence and the daily-challenge record. -/
inductive Effect
  | statsUpdate (won : Bool) (guesses : Nat)
  | dailySave (won : Bool) (wordLength : Nat) (guesses : Nat)
deriving DecidableEq

/-- Selector for stats-store writes. -/
def Effect.isStatsUpdate : Effect → Bool
  | .statsUpdate _ _ => true
  | _ => false

/-- Selector for daily-record writes. -/
def Effect.isDailySave : Effect → Bool
  | .dailySave _ _ _ => true
  | _ => false

/-- Result of one `submitGuess` call: the returned boolean, the state
after all `setState` calls, and the store writes that happened. -/
structure SubmitResult where
  accepted : Bool
  state : AppState
  effects : List Effect

/-- `submitGuess` from the game context in `src/App.tsx`, transcribed
line by line: lower-case, reject on wrong length or failed
`isValidWord`, otherwise evaluate, update the keyboard, append the
guess, derive `won`/`lost`, and on a terminal result call `updateStats`
once and, in daily mode, save the daily record once. -/
def submitGuess (s : AppState) (guess : List Nat) : SubmitResult :=
  let word := toLowerStr guess
  if word.length ≠ s.gameState.wordLength then ⟨false, s, []⟩
  else if ¬ isValidWord word (some s.gameState.wordLength) = true then ⟨false, s, []⟩
  else
    let feedback := getGuessFeedback word s.gameState.secretWord
    let hint := getHintSummary word s.gameState.secretWord
    let kb := updateKeyboardStatus s.keyboardStatus feedback
    let newGuesses := s.gameState.guesses ++ [⟨word, feedback⟩]
    let won := isGuessCorrect word s.gameState.secretWord
    let lost := !won && decide (newGuesses.length ≥ s.gameState.maxAttempts)
    let gs := { s.gameState with
      guesses := newGuesses
      currentGuess := []
      gameStatus := if won then .won else if lost then .lost else .playing }
    let newStats :=
      if won || lost then updateStats s.stats won newGuesses.length else s.stats
    let effects :=
      if won || lost then
        Effect.statsUpdate won newGuesses.length ::
          (if s.gameState.gameMode = .daily then
            [Effect.dailySave won s.gameState.wordLength newGuesses.length]
          else [])
      else []
    ⟨true,
      { s with
        gameState := gs
        keyboardStatus := kb
        stats := newStats
        currentHint := some hint
        lastGuessFeedback := some feedback },
      effects⟩

/-- `addLetter` from the game context in `src/App.tsx`: the
absent-letter guard looks up the UPPER-cased letter in the keyboard map
before `setState`; the buffer-full and status guards live inside the
`setState` updater. -/
def addLetter (s : AppState) (letter : Nat) : AppState :=
  let upperLetter := toUpperCode letter
  if s.keyboardStatus upperLetter = some .absent then s
  else if s.gameState.currentGuess.length ≥ s.gameState.wordLength ∨
      s.gameState.gameStatus ≠ .playing then s
  else
    { s with gameState := { s.gameState with
        currentGuess := s.gameState.currentGuess ++ [toLowerCode letter] } }

/-- `removeLetter` from the game context in `src/App.tsx`. -/
def removeLetter (s : AppState) : AppState :=
  if s.gameState.currentGuess.length = 0 ∨ s.gameState.gameStatus ≠ .playing then s
  else
    { s with gameState := { s.gameState with
        currentGuess := s.gameState.currentGuess.dropLast } }

/-- A finished (won) session used to probe `submitGuess`'s missing
status guard: secret `"hello"`, no guesses recorded, status `won`. -/
def wonState : AppState :=
  { gameState :=
      { secretWord := [104, 101, 108, 108, 111]
        guesses := []
        currentGuess := []
        gameStatus := .won
        wordLength := 5
        gameMode := .unlimited
        maxAttempts := 6 }
    keyboardStatus := fun _ => none
    stats := freshStats
    currentHint := none
    lastGuessFeedback := none }

/-- The code units of `"world"`. -/
def wordWorld : List Nat := [119, 111, 114, 108, 100]

/-- A playing session one guess away from exhausting `maxAttempts`:
secret `"world"`, five dummy guesses recorded, daily mode. -/
def almostLostState : AppState :=
  { gameState :=
      { secretWord := wordWorld
        guesses := List.replicate 5 ⟨[97, 98, 99, 100, 101], []⟩
        currentGuess := []
        gameStatus := .playing
        wordLength := 5
        gameMode := .daily
        maxAttempts := 6 }
    keyboardStatus := fun _ => none
    stats := freshStats
    currentHint := none
    lastGuessFeedback := none }

/-- The code units of `"hello"`. -/
def wordHello : List Nat := [104, 101, 108, 108, 111]

/-- A playing session whose keyboard map records letter `'e'`
(code 101, the lower-case key written by `updateKeyboardStatus`) as
`absent`, with an empty input buffer. -/
def absentEState : AppState :=
  { gameState :=
      { secretWord := wordWorld
        guesses := []
        currentGuess := []
        gameStatus := .playing
        wordLength := 5
        gameMode := .unlimited
        maxAttempts := 6 }
    keyboardStatus := fun c => if c = 101 then some .absent else none
    stats := freshStats
    currentHint := none
    lastGuessFeedback := none }

/-- Number of feedback entries for letter `c` scored `correct` or
`present` (the quantity the duplicate-letter invariant bounds). -/
def scoredCount (c : Nat) : List LetterFeedback → Nat
  | [] => 0
  | f :: rest =>
    (if f.letter = c ∧ (f.status = LetterStatus.correct ∨ f.status = LetterStatus.present)
      then 1 else 0) + scoredCount c rest

/-- Number of exact-match position pairs carrying letter `c`. -/
def exactCount (c : Nat) : List (Nat × Nat) → Nat
  | [] => 0
  | p :: rest => (if p.1 = p.2 ∧ p.1 = c then 1 else 0) + exactCount c rest

theorem pass2_map_letter (pairs : List (Nat × Nat)) (counts : Nat → Nat) :
    (pass2 pairs counts).map LetterFeedback.letter = pairs.map Prod.fst := by
  induction pairs generalizing counts with
  | nil => rfl
  | cons p rest ih =>
    obtain ⟨g, s⟩ := p
    simp only [pass2]
    split_ifs <;> simp [ih]

theorem pass2_length (pairs : List (Nat × Nat)) (counts : Nat → Nat) :
    (pass2 pairs counts).length = pairs.length := by
  rw [← List.length_map (pass2 pairs counts) LetterFeedback.letter,
    pass2_map_letter, List.length_map]

theorem scoredCount_cons (c : Nat) (f : LetterFeedback) (rest : List LetterFeedback) :
    scoredCount c (f :: rest) =
      (if f.letter = c ∧ (f.status = LetterStatus.correct ∨ f.status = LetterStatus.present)
        then 1 else 0) + scoredCount c rest := rfl

theorem scoredCount_cons_correct (c g : Nat) (rest : List LetterFeedback) :
    scoredCount c (⟨g, LetterStatus.correct⟩ :: rest) =
      (if g = c then 1 else 0) + scoredCount c rest := by
  rw [scoredCount_cons]
  by_cases hc : g = c
  · rw [if_pos ⟨hc, Or.inl rfl⟩, if_pos hc]
  · rw [if_neg (fun hx => hc hx.1), if_neg hc]

theorem scoredCount_cons_present (c g : Nat) (rest : List LetterFeedback) :
    scoredCount c (⟨g, LetterStatus.present⟩ :: rest) =
      (if g = c then 1 else 0) + scoredCount c rest := by
  rw [scoredCount_cons]
  by_cases hc : g = c
  · rw [if_pos ⟨hc, Or.inr rfl⟩, if_pos hc]
  · rw [if_neg (fun hx => hc hx.1), if_neg hc]

theorem scoredCount_cons_absent (c g : Nat) (rest : List LetterFeedback) :
    scoredCount c (⟨g, LetterStatus.absent⟩ :: rest) = scoredCount c rest := by
  rw [scoredCount_cons]
  rw [if_neg (fun hx => by
    rcases hx.2 with h | h
    · exact LetterStatus.noConfusion h
    · exact LetterStatus.noConfusion h)]
  omega

theorem exactCount_cons (c g s : Nat) (rest : List (Nat × Nat)) :
    exactCount c ((g, s) :: rest) =
      (if g = s ∧ g = c then 1 else 0) + exactCount c rest := rfl

theorem pass2_scored_le (c : Nat) (pairs : List (Nat × Nat)) (counts : Nat → Nat) :
    scoredCount c (pass2 pairs counts) ≤ exactCount c pairs + counts c := by
  induction pairs generalizing counts with
  | nil => simp [pass2, scoredCount, exactCount]
  | cons p rest ih =>
    obtain ⟨g, s⟩ := p
    simp only [pass2]
    split_ifs with h1 h2
    · rw [scoredCount_cons_correct, exactCount_cons]
      have hi := ih counts
      by_cases hc : g = c
      · rw [if_pos hc, if_pos (show g = s ∧ g = c from ⟨h1, hc⟩)]
        omega
      · rw [if_neg hc, if_neg (show ¬(g = s ∧ g = c) from fun hx => hc hx.2)]
        omega
    · rw [scoredCount_cons_present, exactCount_cons,
        if_neg (show ¬(g = s ∧ g = c) from fun hx => h1 hx.1)]
      have hi := ih (decr counts g)
      by_cases hc : g = c
      · subst hc
        have hdc : decr counts g g = counts g - 1 := by simp [decr]
        rw [hdc] at hi
        rw [if_pos (show g = g from rfl)]
        omega
      · have hdc : decr counts g c = counts c := by
          have hcg : ¬ c = g := fun hx => hc hx.symm
          simp [decr, hcg]
        rw [hdc] at hi
        rw [if_neg hc]
        omega
    · rw [scoredCount_cons_absent, exactCount_cons,
        if_neg (show ¬(g = s ∧ g = c) from fun hx => h1 hx.1)]
      have hi := ih counts
      omega

theorem pass1Counts_eq (pairs : List (Nat × Nat)) (counts : Nat → Nat) (c : Nat) :
    pass1Counts pairs counts c = counts c - exactCount c pairs := by
  induction pairs generalizing counts with
  | nil => simp [pass1Counts, exactCount]
  | cons p rest ih =>
    obtain ⟨g, s⟩ := p
    simp only [pass1Counts]
    split_ifs with h1
    · rw [ih (decr counts g), exactCount_cons]
      by_cases hc : g = c
      · subst hc
        have hdc : decr counts g g = counts g - 1 := by simp [decr]
        rw [hdc, if_pos ⟨h1, rfl⟩]
        omega
      · have hdc : decr counts g c = counts c := by
          have hcg : ¬ c = g := fun hx => hc hx.symm
          simp [decr, hcg]
        rw [hdc, if_neg (fun hx => hc hx.2)]
        omega
    · rw [ih counts, exactCount_cons, if_neg (fun hx => h1 hx.1)]
      omega

theorem countOcc_cons (c x : Nat) (rest : List Nat) :
    countOcc c (x :: rest) = (if x = c then 1 else 0) + countOcc c rest := rfl

theorem exactCount_zip_le_countOcc (l1 l2 : List Nat) (c : Nat) :
    exactCount c (l1.zip l2) ≤ countOcc c l2 := by
  induction l1 generalizing l2 with
  | nil => simp [exactCount]
  | cons g gs ih =>
    cases l2 with
    | nil => simp [exactCount]
    | cons s ss =>
      have hi := ih ss
      rw [List.zip_cons_cons, exactCount_cons, countOcc_cons]
      by_cases h1 : g = s
      · by_cases hc : g = c
        · rw [if_pos (show g = s ∧ g = c from ⟨h1, hc⟩), if_pos (show s = c from h1 ▸ hc)]
          omega
        · rw [if_neg (show ¬(g = s ∧ g = c) from fun hx => hc hx.2)]
          split_ifs <;> omega
      · rw [if_neg (show ¬(g = s ∧ g = c) from fun hx => h1 hx.1)]
        split_ifs <;> omega

theorem pass2_forall2 (pairs : List (Nat × Nat)) (counts : Nat → Nat) :
    List.Forall₂ (fun p f => f.letter = p.1 ∧
      (p.1 = p.2 → f.status = LetterStatus.correct) ∧
      (p.1 ≠ p.2 → f.status = LetterStatus.present ∨ f.status = LetterStatus.absent))
      pairs (pass2 pairs counts) := by
  induction pairs generalizing counts with
  | nil => simp [pass2]
  | cons p rest ih =>
    obtain ⟨g, s⟩ := p
    simp only [pass2]
    split_ifs with h1 h2
    · exact List.Forall₂.cons ⟨rfl, fun _ => rfl, fun hne => absurd h1 hne⟩ (ih _)
    · exact List.Forall₂.cons ⟨rfl, fun he => absurd he h1, fun _ => Or.inl rfl⟩ (ih _)
    · exact List.Forall₂.cons ⟨rfl, fun he => absurd he h1, fun _ => Or.inr rfl⟩ (ih _)

/-- C1: for equal-length guess and secret, `getGuessFeedback` returns
one `LetterFeedback` per guess position, carrying the guess letters in
guess-position order; for every letter value, the number of positions
scored `correct` or `present` with that letter never exceeds its
occurrence count in the secret; and positionwise the result follows the
two-pass algorithm: exact-match positions are `correct`, all other
positions are `present` or `absent`. -/
theorem claim1_getGuessFeedback_spec (guess secret : List Nat)
    (h : guess.length = secret.length) :
    (getGuessFeedback guess secret).length = guess.length ∧
    (getGuessFeedback guess secret).map LetterFeedback.letter = toLowerStr guess ∧
    (∀ c, scoredCount c (getGuessFeedback guess secret) ≤ countOcc c (toLowerStr secret)) ∧
    List.Forall₂ (fun p f => f.letter = p.1 ∧
      (p.1 = p.2 → f.status = LetterStatus.correct) ∧
      (p.1 ≠ p.2 → f.status = LetterStatus.present ∨ f.status = LetterStatus.absent))
      ((toLowerStr guess).zip (toLowerStr secret)) (getGuessFeedback guess secret) := by
  have hg : (toLowerStr guess).length = guess.length := List.length_map _ _
  have hs : (toLowerStr secret).length = secret.length := List.length_map _ _
  have hlen : (toLowerStr guess).length = (toLowerStr secret).length := by
    rw [hg, hs, h]
  refine ⟨?_, ?_, ?_, ?_⟩
  · show (pass2 _ _).length = _
    rw [pass2_length, List.length_zip, hlen, min_self, hs, h]
  · show (pass2 _ _).map LetterFeedback.letter = _
    rw [pass2_map_letter]
    exact List.map_fst_zip _ _ (le_of_eq hlen)
  · intro c
    show scoredCount c (pass2 _ _) ≤ _
    have hb := pass2_scored_le c ((toLowerStr guess).zip (toLowerStr secret))
      (pass1Counts ((toLowerStr guess).zip (toLowerStr secret))
        (secretCharCounts (toLowerStr secret)))
    rw [pass1Counts_eq] at hb
    have he := exactCount_zip_le_countOcc (toLowerStr guess) (toLowerStr secret) c
    simp only [secretCharCounts] at hb
    omega
  · exact pass2_forall2 _ _

/-- C1 witness: the specification instantiated at guess `"eerie"`,
secret `"speed"`. -/
theorem claim1_witness :
    wordEerie.length = wordSpeed.length ∧
    ((getGuessFeedback wordEerie wordSpeed).length = wordEerie.length ∧
    (getGuessFeedback wordEerie wordSpeed).map LetterFeedback.letter = toLowerStr wordEerie ∧
    (∀ c, scoredCount c (getGuessFeedback wordEerie wordSpeed) ≤ countOcc c (toLowerStr wordSpeed)) ∧
    List.Forall₂ (fun p f => f.letter = p.1 ∧
      (p.1 = p.2 → f.status = LetterStatus.correct) ∧
      (p.1 ≠ p.2 → f.status = LetterStatus.present ∨ f.status = LetterStatus.absent))
      ((toLowerStr wordEerie).zip (toLowerStr wordSpeed))
      (getGuessFeedback wordEerie wordSpeed)) :=
  ⟨by decide, claim1_getGuessFeedback_spec wordEerie wordSpeed (by decide)⟩

/-- C2 counterexample: evaluating guess `"eerie"` against secret
`"speed"` does not produce the vector
`[present, correct, absent, absent, absent]` claimed by the spec
(secret `"speed"` has `'p'`, not `'e'`, at position 1, so no position is
an exact match). -/
theorem claim2_counterexample :
    (getGuessFeedback wordEerie wordSpeed).map LetterFeedback.status ≠
      [LetterStatus.present, LetterStatus.correct, LetterStatus.absent,
       LetterStatus.absent, LetterStatus.absent] := by
  decide

/-- C2 amended: evaluating guess `"eerie"` against secret `"speed"`
yields the feedback vector `[present, present, absent, absent, absent]`
in positions 0 through 4. -/
theorem claim2_amended :
    (getGuessFeedback wordEerie wordSpeed).map LetterFeedback.status =
      [LetterStatus.present, LetterStatus.present, LetterStatus.absent,
       LetterStatus.absent, LetterStatus.absent] := by
  decide

theorem pass2_all_correct_iff (pairs : List (Nat × Nat)) (counts : Nat → Nat) :
    (∀ f ∈ pass2 pairs counts, f.status = LetterStatus.correct) ↔
      ∀ p ∈ pairs, p.1 = p.2 := by
  induction pairs generalizing counts with
  | nil => simp [pass2]
  | cons p rest ih =>
    obtain ⟨g, s⟩ := p
    simp only [pass2]
    split_ifs with h1 h2
    · simp only [List.mem_cons, forall_eq_or_imp]
      rw [ih counts]
      simp [h1]
    · simp only [List.mem_cons, forall_eq_or_imp]
      simp [h1]
    · simp only [List.mem_cons, forall_eq_or_imp]
      simp [h1]

theorem zip_forall_eq_iff (l1 : List Nat) : ∀ (l2 : List Nat),
    l1.length = l2.length →
    ((∀ p ∈ l1.zip l2, p.1 = p.2) ↔ l1 = l2) := by
  induction l1 with
  | nil =>
    intro l2 h
    cases l2 with
    | nil => simp
    | cons b l2 => simp at h
  | cons a l1 ih =>
    intro l2 h
    cases l2 with
    | nil => simp at h
    | cons b l2 =>
      have hlen : l1.length = l2.length := by simpa using h
      rw [List.zip_cons_cons, List.cons.injEq]
      constructor
      · intro hp
        exact ⟨hp (a, b) (List.mem_cons_self _ _),
          (ih l2 hlen).mp fun p hp2 => hp p (List.mem_cons_of_mem _ hp2)⟩
      · rintro ⟨hab, hrest⟩ p hp
        rcases List.mem_cons.mp hp with rfl | hp2
        · exact hab
        · exact (ih l2 hlen).mpr hrest p hp2

/-- C10: for equal-length guess and secret, `isGuessCorrect`
(case-insensitive full-word equality) holds exactly when
`getGuessFeedback` assigns status `correct` at every position. -/
theorem claim10_isGuessCorrect_iff_all_correct (guess secret : List Nat)
    (h : guess.length = secret.length) :
    isGuessCorrect guess secret = true ↔
      ∀ f ∈ getGuessFeedback guess secret, f.status = LetterStatus.correct := by
  have hlen : (toLowerStr guess).length = (toLowerStr secret).length := by
    simp [toLowerStr, h]
  rw [show getGuessFeedback guess secret =
      pass2 ((toLowerStr guess).zip (toLowerStr secret))
        (pass1Counts ((toLowerStr guess).zip (toLowerStr secret))
          (secretCharCounts (toLowerStr secret))) from rfl,
    pass2_all_correct_iff, zip_forall_eq_iff _ _ hlen]
  simp [isGuessCorrect]

/-- C10 witness: the equivalence instantiated at guess `"speed"`,
secret `"speed"`. -/
theorem claim10_witness :
    wordSpeed.length = wordSpeed.length ∧
    (isGuessCorrect wordSpeed wordSpeed = true ↔
      ∀ f ∈ getGuessFeedback wordSpeed wordSpeed, f.status = LetterStatus.correct) :=
  ⟨by decide, claim10_isGuessCorrect_iff_all_correct wordSpeed wordSpeed (by decide)⟩

theorem countCorrectPosition_eq (l1 : List Nat) : ∀ (l2 : List Nat),
    countCorrectPosition l1 l2 =
      (l1.zip l2).countP (fun p => decide (p.1 = p.2)) := by
  induction l1 with
  | nil => intro l2; cases l2 <;> simp [countCorrectPosition]
  | cons a l1 ih =>
    intro l2
    cases l2 with
    | nil => simp [countCorrectPosition]
    | cons b l2 =>
      rw [List.zip_cons_cons, List.countP_cons]
      simp only [countCorrectPosition]
      rw [ih]
      by_cases hab : a = b <;> simp [hab] <;> omega

theorem countLettersInWord_eq (l s : List Nat) : ∀ (counted : List Nat),
    countLettersInWord l s counted =
      ((l.toFinset ∩ s.toFinset) \ counted.toFinset).card := by
  induction l with
  | nil => intro counted; simp [countLettersInWord]
  | cons c rest ih =>
    intro counted
    simp only [countLettersInWord]
    split_ifs with h1
    · rw [ih (c :: counted)]
      have hset : (((c :: rest).toFinset ∩ s.toFinset) \ counted.toFinset) =
          insert c ((rest.toFinset ∩ s.toFinset) \ (c :: counted).toFinset) := by
        ext x
        simp only [List.toFinset_cons, Finset.mem_sdiff, Finset.mem_inter,
          Finset.mem_insert, List.mem_toFinset, List.mem_cons]
        by_cases hxc : x = c
        · constructor
          · intro _
            exact Or.inl hxc
          · intro _
            exact ⟨⟨Or.inl hxc, hxc ▸ h1.1⟩, hxc ▸ h1.2⟩
        · constructor
          · rintro ⟨⟨hx1a, hx1b⟩, hx2⟩
            have hx1a2 : x ∈ rest := by
              rcases hx1a with hh | hh
              · exact absurd hh hxc
              · exact hh
            refine Or.inr ⟨⟨hx1a2, hx1b⟩, fun hor => ?_⟩
            rcases hor with hh | hh
            · exact hxc hh
            · exact hx2 hh
          · intro hor
            rcases hor with hh | hh
            · exact absurd hh hxc
            · obtain ⟨⟨hx1, hx2⟩, hx3⟩ := hh
              exact ⟨⟨Or.inr hx1, hx2⟩, fun hc2 => hx3 (Or.inr hc2)⟩
      rw [hset, Finset.card_insert_of_not_mem (by simp)]
      omega
    · rw [ih counted]
      congr 1
      ext x
      simp only [List.toFinset_cons, Finset.mem_sdiff, Finset.mem_inter,
        Finset.mem_insert, List.mem_toFinset, List.mem_cons]
      constructor
      · rintro ⟨⟨hx1, hx2⟩, hx3⟩
        exact ⟨⟨Or.inr hx1, hx2⟩, hx3⟩
      · rintro ⟨⟨hx1, hx2⟩, hx3⟩
        rcases hx1 with hh | hh
        · rw [hh] at hx2 hx3
          exact absurd ⟨hx2, hx3⟩ h1
        · exact ⟨⟨hh, hx2⟩, hx3⟩

/-- C8: for equal-length inputs, `getHintSummary` returns
`correctPosition` equal to the number of positions where the lowered
guess and secret agree, and `lettersInWord` equal to the number of
distinct letter values of the guess occurring anywhere in the secret
(each distinct letter counted once); in particular
`getHintSummary "speed" "speed" = {lettersInWord := 4, correctPosition := 5}`. -/
theorem claim8_getHintSummary_spec (guess secret : List Nat)
    (h : guess.length = secret.length) :
    (getHintSummary guess secret).correctPosition =
      ((toLowerStr guess).zip (toLowerStr secret)).countP (fun p => decide (p.1 = p.2)) ∧
    (getHintSummary guess secret).lettersInWord =
      ((toLowerStr guess).toFinset ∩ (toLowerStr secret).toFinset).card ∧
    getHintSummary wordSpeed wordSpeed = ⟨4, 5⟩ := by
  refine ⟨countCorrectPosition_eq _ _, ?_, by decide⟩
  show countLettersInWord _ _ [] = _
  rw [countLettersInWord_eq]
  simp

/-- C8 witness: the specification instantiated at guess `"speed"`,
secret `"speed"`. -/
theorem claim8_witness :
    wordSpeed.length = wordSpeed.length ∧
    ((getHintSummary wordSpeed wordSpeed).correctPosition =
      ((toLowerStr wordSpeed).zip (toLowerStr wordSpeed)).countP (fun p => decide (p.1 = p.2)) ∧
    (getHintSummary wordSpeed wordSpeed).lettersInWord =
      ((toLowerStr wordSpeed).toFinset ∩ (toLowerStr wordSpeed).toFinset).card ∧
    getHintSummary wordSpeed wordSpeed = ⟨4, 5⟩) :=
  ⟨by decide, claim8_getHintSummary_spec wordSpeed wordSpeed (by decide)⟩

/-- C7: `updateStats` increments `gamesPlayed` always; on a win it
increments `gamesWon` and `currentStreak`, sets `bestStreak` to the
maximum of the old best and the new streak, and bumps the guess
distribution at the attempt count; on a loss it resets `currentStreak`
to 0 and leaves `gamesWon`, `bestStreak` and the distribution unchanged.
Applied to the all-zero fresh stats with a win in 3 attempts it yields
`{gamesPlayed := 1, gamesWon := 1, currentStreak := 1, bestStreak := 1,
guessDistribution := {3 ↦ 1}}`. -/
theorem claim7_updateStats_spec :
    (∀ (st : GameStats) (n : Nat),
      (updateStats st true n).gamesPlayed = st.gamesPlayed + 1 ∧
      (updateStats st false n).gamesPlayed = st.gamesPlayed + 1 ∧
      (updateStats st true n).gamesWon = st.gamesWon + 1 ∧
      (updateStats st true n).currentStreak = st.currentStreak + 1 ∧
      (updateStats st true n).bestStreak = max st.bestStreak (st.currentStreak + 1) ∧
      (∀ k, (updateStats st true n).guessDistribution k =
        if k = n then st.guessDistribution k + 1 else st.guessDistribution k) ∧
      (updateStats st false n).gamesWon = st.gamesWon ∧
      (updateStats st false n).currentStreak = 0 ∧
      (updateStats st false n).bestStreak = st.bestStreak ∧
      (∀ k, (updateStats st false n).guessDistribution k = st.guessDistribution k)) ∧
    ((updateStats freshStats true 3).gamesPlayed = 1 ∧
     (updateStats freshStats true 3).gamesWon = 1 ∧
     (updateStats freshStats true 3).currentStreak = 1 ∧
     (updateStats freshStats true 3).bestStreak = 1 ∧
     ∀ k, (updateStats freshStats true 3).guessDistribution k =
       if k = 3 then 1 else 0) := by
  constructor
  · intro st n
    refine ⟨?_, rfl, ?_, ?_, ?_, fun k => ?_, rfl, rfl, rfl, fun k => rfl⟩
    · simp only [updateStats]
      split_ifs <;> rfl
    · simp only [updateStats]
      split_ifs <;> rfl
    · simp only [updateStats]
      split_ifs <;> rfl
    · simp [updateStats]
      split_ifs with hb
      · show st.currentStreak + 1 = max st.bestStreak (st.currentStreak + 1)
        omega
      · show st.bestStreak = max st.bestStreak (st.currentStreak + 1)
        omega
    · by_cases hk : k = n
      · subst hk
        simp [updateStats]
        split_ifs <;> rfl
      · simp [updateStats, hk]
        split_ifs <;> rfl
  · refine ⟨rfl, rfl, rfl, rfl, fun k => ?_⟩
    by_cases hk : k = 3 <;> simp [updateStats, freshStats, hk]

theorem keyRank_le_three (x : Option KeyStatus) : keyRank x ≤ 3 := by
  rcases x with _ | s
  · simp [keyRank]
  · cases s <;> simp [keyRank]

theorem keyRank_le_two {x : Option KeyStatus} (h : x ≠ some KeyStatus.correct) :
    keyRank x ≤ 2 := by
  rcases x with _ | s
  · simp [keyRank]
  · cases s with
    | correct => exact absurd rfl h
    | present => simp [keyRank]
    | absent => simp [keyRank]

theorem keyRank_le_one {x : Option KeyStatus} (h1 : x ≠ some KeyStatus.correct)
    (h2 : x ≠ some KeyStatus.present) : keyRank x ≤ 1 := by
  rcases x with _ | s
  · simp [keyRank]
  · cases s with
    | correct => exact absurd rfl h1
    | present => exact absurd rfl h2
    | absent => simp [keyRank]

theorem keyRank_le_updateKeyItem (kb : Nat → Option KeyStatus)
    (item : LetterFeedback) (c : Nat) :
    keyRank (kb c) ≤ keyRank (updateKeyItem kb item c) := by
  unfold updateKeyItem
  split_ifs with h1 h2 h3
  · show keyRank (kb c) ≤
      keyRank (if c = item.letter then some KeyStatus.correct else kb c)
    by_cases hc : c = item.letter
    · rw [if_pos hc]
      exact keyRank_le_three _
    · rw [if_neg hc]
  · show keyRank (kb c) ≤
      keyRank (if c = item.letter then some KeyStatus.present else kb c)
    by_cases hc : c = item.letter
    · rw [if_pos hc]
      have hn : kb c ≠ some KeyStatus.correct := hc ▸ h2.2
      calc keyRank (kb c) ≤ 2 := keyRank_le_two hn
        _ = keyRank (some KeyStatus.present) := rfl
    · rw [if_neg hc]
  · show keyRank (kb c) ≤
      keyRank (if c = item.letter then some KeyStatus.absent else kb c)
    by_cases hc : c = item.letter
    · rw [if_pos hc]
      have hn1 : kb c ≠ some KeyStatus.correct := hc ▸ h3.2.1
      have hn2 : kb c ≠ some KeyStatus.present := hc ▸ h3.2.2
      calc keyRank (kb c) ≤ 1 := keyRank_le_one hn1 hn2
        _ = keyRank (some KeyStatus.absent) := rfl
    · rw [if_neg hc]
  · exact le_refl _

theorem keyRank_le_updateKeyboardStatus (kb : Nat → Option KeyStatus)
    (fb : List LetterFeedback) (c : Nat) :
    keyRank (kb c) ≤ keyRank (updateKeyboardStatus kb fb c) := by
  induction fb generalizing kb with
  | nil => exact le_refl _
  | cons item rest ih =>
    calc keyRank (kb c) ≤ keyRank (updateKeyItem kb item c) :=
        keyRank_le_updateKeyItem kb item c
      _ ≤ keyRank (updateKeyboardStatus (updateKeyItem kb item) rest c) :=
        ih (updateKeyItem kb item)

theorem keyRank_eq_three {x : Option KeyStatus} (h : 3 ≤ keyRank x) :
    x = some KeyStatus.correct := by
  rcases x with _ | s
  · simp [keyRank] at h
  · cases s with
    | correct => rfl
    | present => simp [keyRank] at h
    | absent => simp [keyRank] at h

theorem keyRank_ge_two {x : Option KeyStatus} (h : 2 ≤ keyRank x) :
    x = some KeyStatus.present ∨ x = some KeyStatus.correct := by
  rcases x with _ | s
  · simp [keyRank] at h
  · cases s with
    | correct => exact Or.inr rfl
    | present => exact Or.inl rfl
    | absent => simp [keyRank] at h

/-- C5: the keyboard map is monotone under every sequence of
`updateKeyboardStatus` applications: for every letter the recorded
status only moves forward along `absent < present < correct`; once
`correct` it stays `correct`, once `present` it stays `present` or
becomes `correct`. -/
theorem claim5_keyboard_monotone (kb : Nat → Option KeyStatus)
    (fbs : List (List LetterFeedback)) (c : Nat) :
    keyRank (kb c) ≤ keyRank ((fbs.foldl updateKeyboardStatus kb) c) ∧
    (kb c = some KeyStatus.correct →
      (fbs.foldl updateKeyboardStatus kb) c = some KeyStatus.correct) ∧
    (kb c = some KeyStatus.present →
      (fbs.foldl updateKeyboardStatus kb) c = some KeyStatus.present ∨
      (fbs.foldl updateKeyboardStatus kb) c = some KeyStatus.correct) := by
  have hmono : keyRank (kb c) ≤ keyRank ((fbs.foldl updateKeyboardStatus kb) c) := by
    induction fbs generalizing kb with
    | nil => exact le_refl _
    | cons fb rest ih =>
      calc keyRank (kb c) ≤ keyRank (updateKeyboardStatus kb fb c) :=
          keyRank_le_updateKeyboardStatus kb fb c
        _ ≤ keyRank ((rest.foldl updateKeyboardStatus (updateKeyboardStatus kb fb)) c) :=
          ih (updateKeyboardStatus kb fb)
  refine ⟨hmono, fun hcor => ?_, fun hpre => ?_⟩
  · apply keyRank_eq_three
    rw [hcor] at hmono
    exact hmono
  · apply keyRank_ge_two
    rw [hpre] at hmono
    exact hmono

theorem toInt32_emod (a : Int) : toInt32 a % 2 ^ 32 = a % 2 ^ 32 := by
  unfold toInt32
  rw [Int.sub_emod, Int.emod_emod_of_dvd _ dvd_rfl, ← Int.sub_emod,
    add_sub_cancel_right]

theorem toInt32_congr {a b : Int} (h : a % 2 ^ 32 = b % 2 ^ 32) :
    toInt32 a = toInt32 b := by
  unfold toInt32
  congr 1
  rw [Int.add_emod, h, ← Int.add_emod]

theorem hashStep_eq_specHashStep : hashStep = specHashStep := by
  funext hash c
  unfold hashStep specHashStep
  apply toInt32_congr
  have h1 : (toInt32 (hash * 32) - hash) % 2 ^ 32 = (hash * 32 - hash) % 2 ^ 32 := by
    rw [Int.sub_emod, toInt32_emod, ← Int.sub_emod]
  rw [Int.add_emod, h1, ← Int.add_emod]

theorem hashString_eq_specHashString : hashString = specHashString := by
  funext s
  unfold hashString specHashString
  rw [hashStep_eq_specHashStep]

/-- C9: the daily word is a deterministic function of the word length
and the calendar date: on a nonempty word list, `getDailyWord` returns
the list entry at index `natAbs hash % length`, where `hash` is the
fold `hash = ((hash << 5) - hash + charCode)` truncated to 32 bits over
the characters of the date string `"{year}-{month}-{day}"` (month
zero-based); determinism is immediate since the date is an explicit
argument of a pure function. -/
theorem claim9_getDailyWord_spec (five six : List (List Nat))
    (wordLength year month day : Nat)
    (h : 0 < (if wordLength = 5 then five else six).length) :
    getDailyWord five six wordLength year month day =
      (if wordLength = 5 then five else six).get
        ⟨(specHashString (dateStringCodes year month day)).natAbs %
            (if wordLength = 5 then five else six).length,
          Nat.mod_lt _ h⟩ := by
  unfold getDailyWord
  rw [hashString_eq_specHashString]
  exact List.getD_eq_getElem _ _ _

/-- C9 witness: the daily-word equation instantiated at a singleton
five-letter word list and the date 2026-09-11. -/
theorem claim9_witness :
    0 < (if 5 = 5 then [wordHello] else ([] : List (List Nat))).length ∧
    getDailyWord [wordHello] [] 5 2026 9 11 =
      (if 5 = 5 then [wordHello] else ([] : List (List Nat))).get
        ⟨(specHashString (dateStringCodes 2026 9 11)).natAbs %
            (if 5 = 5 then [wordHello] else ([] : List (List Nat))).length,
          Nat.mod_lt _ (by decide)⟩ :=
  ⟨by decide, claim9_getDailyWord_spec [wordHello] [] 5 2026 9 11 (by decide)⟩

theorem toLowerCode_idem (c : Nat) : toLowerCode (toLowerCode c) = toLowerCode c := by
  unfold toLowerCode
  split_ifs <;> omega

theorem toLowerStr_idem (l : List Nat) : toLowerStr (toLowerStr l) = toLowerStr l := by
  induction l with
  | nil => rfl
  | cons a l ih =>
    show toLowerCode (toLowerCode a) :: toLowerStr (toLowerStr l) =
      toLowerCode a :: toLowerStr l
    rw [toLowerCode_idem, ih]

theorem isAsciiLower_not_ws {c : Nat} (h : isAsciiLowerCode c = true) :
    isJsWhitespace c = false := by
  simp only [isAsciiLowerCode, decide_eq_true_eq] at h
  simp only [isJsWhitespace, decide_eq_false_iff_not]
  omega

theorem dropWhile_eq_self_of_all {p : Nat → Bool} {l : List Nat}
    (h : ∀ c ∈ l, p c = false) : l.dropWhile p = l := by
  cases l with
  | nil => rfl
  | cons a l =>
    rw [List.dropWhile_cons, h a (List.mem_cons_self a l)]
    simp

theorem length_dropWhile_le_self (p : Nat → Bool) (l : List Nat) :
    (l.dropWhile p).length ≤ l.length := by
  induction l with
  | nil => exact le_refl _
  | cons a l ih =>
    rw [List.dropWhile_cons]
    split_ifs
    · calc (l.dropWhile p).length ≤ l.length := ih
        _ ≤ (a :: l).length := by simp
    · exact le_refl _

theorem dropWhile_eq_of_length {p : Nat → Bool} {l : List Nat}
    (h : (l.dropWhile p).length = l.length) : l.dropWhile p = l := by
  cases l with
  | nil => rfl
  | cons a l =>
    rw [List.dropWhile_cons] at h ⊢
    split_ifs at h ⊢ with hp
    · have := length_dropWhile_le_self p l
      simp at h
      omega
    · rfl

theorem jsTrim_eq_self_of_all {l : List Nat}
    (h : ∀ c ∈ l, isJsWhitespace c = false) : jsTrim l = l := by
  unfold jsTrim
  rw [dropWhile_eq_self_of_all h,
    dropWhile_eq_self_of_all (fun c hc => h c (List.mem_reverse.mp hc)),
    List.reverse_reverse]

theorem jsTrim_length_le (l : List Nat) : (jsTrim l).length ≤ l.length := by
  unfold jsTrim
  rw [List.length_reverse]
  calc ((l.dropWhile isJsWhitespace).reverse.dropWhile isJsWhitespace).length
      ≤ (l.dropWhile isJsWhitespace).reverse.length :=
        length_dropWhile_le_self _ _
    _ = (l.dropWhile isJsWhitespace).length := List.length_reverse _
    _ ≤ l.length := length_dropWhile_le_self _ _

theorem jsTrim_eq_of_length {l : List Nat}
    (h : (jsTrim l).length = l.length) : jsTrim l = l := by
  have h1 : (l.dropWhile isJsWhitespace).length ≤ l.length :=
    length_dropWhile_le_self _ _
  have h2 : ((l.dropWhile isJsWhitespace).reverse.dropWhile isJsWhitespace).length ≤
      (l.dropWhile isJsWhitespace).reverse.length :=
    length_dropWhile_le_self _ _
  rw [List.length_reverse] at h2
  unfold jsTrim at h
  rw [List.length_reverse] at h
  have heq2 : ((l.dropWhile isJsWhitespace).reverse.dropWhile isJsWhitespace).length =
      (l.dropWhile isJsWhitespace).reverse.length := by
    rw [List.length_reverse]
    omega
  have heq1 : (l.dropWhile isJsWhitespace).length = l.length := by omega
  unfold jsTrim
  rw [dropWhile_eq_of_length heq2, List.reverse_reverse,
    dropWhile_eq_of_length heq1]

theorem isValidWord_iff (w : List Nat) (wl : Nat) (hwl : wl = 5 ∨ wl = 6)
    (hlow : toLowerStr w = w) (hlen : w.length = wl) :
    isValidWord w (some wl) = w.all isAsciiLowerCode := by
  unfold isValidWord
  rw [hlow]
  dsimp only
  by_cases hall : w.all isAsciiLowerCode = true
  · have hnws : ∀ c ∈ w, isJsWhitespace c = false := fun c hc =>
      isAsciiLower_not_ws (List.all_eq_true.mp hall c hc)
    rw [jsTrim_eq_self_of_all hnws, hlen]
    rcases hwl with rfl | rfl
    · simp [hall]
    · simp [hall]
  · have hfalse : w.all isAsciiLowerCode = false := by
      revert hall
      cases w.all isAsciiLowerCode <;> simp
    rw [hfalse]
    by_cases htr : (jsTrim w).length = w.length
    · have hteq : jsTrim w = w := jsTrim_eq_of_length htr
      rw [hteq, hlen]
      rcases hwl with rfl | rfl
      · simp [hfalse]
      · simp [hfalse]
    · have hlt : (jsTrim w).length < w.length :=
        lt_of_le_of_ne (jsTrim_length_le w) htr
      have hne : (jsTrim w).length ≠ wl := by omega
      by_cases h56 : (jsTrim w).length ≠ 5 ∧ (jsTrim w).length ≠ 6
      · rw [if_pos h56]
      · rw [if_neg h56]
        simp only [if_pos hne]

/-- C3 counterexample: `submitGuess` performs no game-status check, so a
well-formed guess submitted to a session whose status is `won` is
accepted and mutates the state, contradicting the claim that a
non-`playing` status causes rejection. -/
theorem claim3_counterexample :
    wonState.gameState.gameStatus ≠ GameStatus.playing ∧
    (submitGuess wonState wordWorld).accepted = true ∧
    (submitGuess wonState wordWorld).state.gameState.guesses ≠
      wonState.gameState.guesses := by
  refine ⟨by decide, by decide, by decide⟩

/-- C3 amended: `submitGuess(raw)` rejects — returning a rejection with
the state unchanged and no store writes — exactly when the lowercased
input's length differs from the session's `wordLength` or the lowercased
input contains a character outside `a`–`z`.  `submitGuess` itself checks
no game status (the `playing` guard lives in the UI caller), so a
non-`playing` status does not cause rejection. -/
theorem claim3_submitGuess_reject_iff (s : AppState) (g : List Nat)
    (hwl : s.gameState.wordLength = 5 ∨ s.gameState.wordLength = 6) :
    ((submitGuess s g).accepted = false ↔
      ((toLowerStr g).length ≠ s.gameState.wordLength ∨
        ¬ (toLowerStr g).all isAsciiLowerCode = true)) ∧
    ((submitGuess s g).accepted = false →
      (submitGuess s g).state = s ∧ (submitGuess s g).effects = []) := by
  unfold submitGuess
  by_cases hlen : (toLowerStr g).length ≠ s.gameState.wordLength
  · rw [if_pos hlen]
    exact ⟨by simp [hlen], fun _ => ⟨rfl, rfl⟩⟩
  · rw [if_neg hlen]
    push_neg at hlen
    have hiv := isValidWord_iff (toLowerStr g) s.gameState.wordLength hwl
      (toLowerStr_idem g) hlen
    by_cases hval : isValidWord (toLowerStr g) (some s.gameState.wordLength) = true
    · rw [if_neg (show ¬¬ isValidWord (toLowerStr g)
          (some s.gameState.wordLength) = true from fun hx => hx hval)]
      constructor
      · constructor
        · intro hacc
          exact absurd hacc (by simp)
        · intro hor
          rcases hor with hh | hh
          · exact absurd hlen hh
          · rw [hiv] at hval
            exact absurd hval hh
      · intro hacc
        exact absurd hacc (by simp)
    · rw [if_pos (show ¬ isValidWord (toLowerStr g)
          (some s.gameState.wordLength) = true from hval)]
      constructor
      · constructor
        · intro _
          right
          rw [hiv] at hval
          exact hval
        · intro _
          rfl
      · intro _
        exact ⟨rfl, rfl⟩

/-- C3 witness: the rejection characterization instantiated at the
finished session `wonState` and the guess `"world"`. -/
theorem claim3_witness :
    (wonState.gameState.wordLength = 5 ∨ wonState.gameState.wordLength = 6) ∧
    (((submitGuess wonState wordWorld).accepted = false ↔
      ((toLowerStr wordWorld).length ≠ wonState.gameState.wordLength ∨
        ¬ (toLowerStr wordWorld).all isAsciiLowerCode = true)) ∧
    ((submitGuess wonState wordWorld).accepted = false →
      (submitGuess wonState wordWorld).state = wonState ∧
      (submitGuess wonState wordWorld).effects = [])) :=
  ⟨Or.inl rfl, claim3_submitGuess_reject_iff wonState wordWorld (Or.inl rfl)⟩

/-- C4: an accepted guess that is not an exact match and brings the
guess count up to `maxAttempts` moves a playing session to `lost`, emits
exactly one stats-store write — `updateStats false maxAttempts` — and,
in daily mode, exactly one daily-record write; in unlimited mode the
stats write is the only store write. -/
theorem claim4_lost_transition (s : AppState) (g : List Nat)
    (hstatus : s.gameState.gameStatus = GameStatus.playing)
    (hwl : s.gameState.wordLength = 5 ∨ s.gameState.wordLength = 6)
    (hlen : (toLowerStr g).length = s.gameState.wordLength)
    (halpha : (toLowerStr g).all isAsciiLowerCode = true)
    (hnotwin : isGuessCorrect g s.gameState.secretWord = false)
    (hcount : s.gameState.guesses.length + 1 = s.gameState.maxAttempts) :
    (submitGuess s g).accepted = true ∧
    (submitGuess s g).state.gameState.gameStatus = GameStatus.lost ∧
    (submitGuess s g).effects.filter Effect.isStatsUpdate =
      [Effect.statsUpdate false s.gameState.maxAttempts] ∧
    (s.gameState.gameMode = GameMode.daily →
      (submitGuess s g).effects =
        [Effect.statsUpdate false s.gameState.maxAttempts,
         Effect.dailySave false s.gameState.wordLength s.gameState.maxAttempts]) ∧
    (s.gameState.gameMode = GameMode.unlimited →
      (submitGuess s g).effects =
        [Effect.statsUpdate false s.gameState.maxAttempts]) := by
  have hwon : isGuessCorrect (toLowerStr g) s.gameState.secretWord = false := by
    unfold isGuessCorrect at hnotwin ⊢
    rw [toLowerStr_idem]
    exact hnotwin
  have hvalid : isValidWord (toLowerStr g) (some s.gameState.wordLength) = true := by
    rw [isValidWord_iff (toLowerStr g) s.gameState.wordLength hwl
      (toLowerStr_idem g) hlen]
    exact halpha
  have hnewlen : (s.gameState.guesses ++
      [Guess.mk (toLowerStr g) (getGuessFeedback (toLowerStr g) s.gameState.secretWord)]).length =
      s.gameState.maxAttempts := by
    rw [List.length_append]
    simpa using hcount
  unfold submitGuess
  rw [if_neg (show ¬ (toLowerStr g).length ≠ s.gameState.wordLength from
    fun hx => hx hlen)]
  rw [if_neg (show ¬¬ isValidWord (toLowerStr g)
    (some s.gameState.wordLength) = true from fun hx => hx hvalid)]
  dsimp only
  rw [hwon, hnewlen]
  refine ⟨rfl, by simp, ?_, ?_, ?_⟩
  · by_cases hd : s.gameState.gameMode = GameMode.daily
    · simp [hd, Effect.isStatsUpdate, Effect.isDailySave]
    · simp [hd, Effect.isStatsUpdate]
  · intro hd
    simp [hd]
  · intro hd
    have hnd : ¬ s.gameState.gameMode = GameMode.daily := by
      rw [hd]
      intro hx
      exact GameMode.noConfusion hx
    simp [hnd]

/-- C4 witness: the lost-transition theorem instantiated at the daily
session `almostLostState` (five guesses used, `maxAttempts` 6, secret
`"world"`) and the losing guess `"hello"`. -/
theorem claim4_witness :
    (almostLostState.gameState.gameStatus = GameStatus.playing ∧
     (almostLostState.gameState.wordLength = 5 ∨ almostLostState.gameState.wordLength = 6) ∧
     (toLowerStr wordHello).length = almostLostState.gameState.wordLength ∧
     (toLowerStr wordHello).all isAsciiLowerCode = true ∧
     isGuessCorrect wordHello almostLostState.gameState.secretWord = false ∧
     almostLostState.gameState.guesses.length + 1 = almostLostState.gameState.maxAttempts) ∧
    ((submitGuess almostLostState wordHello).accepted = true ∧
     (submitGuess almostLostState wordHello).state.gameState.gameStatus = GameStatus.lost ∧
     (submitGuess almostLostState wordHello).effects.filter Effect.isStatsUpdate =
       [Effect.statsUpdate false almostLostState.gameState.maxAttempts] ∧
     (almostLostState.gameState.gameMode = GameMode.daily →
       (submitGuess almostLostState wordHello).effects =
         [Effect.statsUpdate false almostLostState.gameState.maxAttempts,
          Effect.dailySave false almostLostState.gameState.wordLength
            almostLostState.gameState.maxAttempts]) ∧
     (almostLostState.gameState.gameMode = GameMode.unlimited →
       (submitGuess almostLostState wordHello).effects =
         [Effect.statsUpdate false almostLostState.gameState.maxAttempts])) :=
  ⟨⟨by decide, Or.inl rfl, by decide, by decide, by decide, by decide⟩,
    claim4_lost_transition almostLostState wordHello (by decide) (Or.inl rfl)
      (by decide) (by decide) (by decide) (by decide)⟩

/-- C6: the claim is right and the code is wrong.  `addLetter` is meant
to be a no-op when the letter's keyboard status is `absent` (the
source's own comment says so), but it looks up the UPPER-cased letter
while `updateKeyboardStatus` keys the map by the lower-case letters of
the feedback, so the guard never fires: with `'e'` (code 101) recorded
`absent`, `addLetter 'e'` still appends `'e'` to the buffer. -/
theorem claim6_addLetter_absent_guard_broken :
    absentEState.keyboardStatus 101 = some KeyStatus.absent ∧
    absentEState.gameState.gameStatus = GameStatus.playing ∧
    absentEState.gameState.currentGuess = [] ∧
    absentEState.gameState.wordLength = 5 ∧
    (addLetter absentEState 101).gameState.currentGuess = [101] := by
  refine ⟨by decide, by decide, by decide, by decide, by decide⟩
